import Mathlib

/-!
Verification of the `reader-map` concurrent multimap of this repository.

The development embeds, as pure Lean functions:

* the reference multimap semantics used by the property tests in
  `src/reader-map/tests/quick.rs` (a `BTreeMap<K, Vec<V>>` driven by `do_ops`),
  translated operation for operation from that file; and
* the left-right reader map itself (`WriteHandle` / `ReadHandle` / `publish`),
  whose implementation is not part of the provided sources, modelled from the
  spec: a read copy, a write copy eagerly updated by each mutation, and an
  operation log that `publish()` replays onto the read copy.

Both sides are sorted association lists from keys to value bags (lists of
values, duplicates allowed).  Theorems then relate the observable behaviour of
the modelled reader map (`get`, `len`, `keys`, `enter`) to the reference
semantics, sequence of operations by sequence of operations.
-/

namespace ReaderMap

/-- Rust `std::ops::Bound<K>`, the endpoint type used by `remove_range` and by
`Op::RemoveRange` in `quick.rs`. -/
inductive Bound (K : Type) where
  | included (k : K)
  | excluded (k : K)
  | unbounded
deriving DecidableEq, Repr

/-- Lower-endpoint test of Rust `RangeBounds::contains`: the start bound
admits `k`. -/
def Bound.lowerHolds {K : Type} [LinearOrder K] : Bound K → K → Bool
  | .included s, k => decide (s ≤ k)
  | .excluded s, k => decide (s < k)
  | .unbounded, _ => true

/-- Upper-endpoint test of Rust `RangeBounds::contains`: the end bound
admits `k`. -/
def Bound.upperHolds {K : Type} [LinearOrder K] : Bound K → K → Bool
  | .included e, k => decide (k ≤ e)
  | .excluded e, k => decide (k < e)
  | .unbounded, _ => true

/-- Rust `(Bound<K>, Bound<K>) : RangeBounds<K>` membership, i.e.
`range.contains(&k)` as used in `do_ops` for `RemoveRange`. -/
def rangeContains {K : Type} [LinearOrder K] (bs : Bound K × Bound K) (k : K) : Bool :=
  bs.1.lowerHolds k && bs.2.upperHolds k

/-- The operation alphabet of `quick.rs` (`enum Op<K, V>`): `Add`, `Remove`,
`RemoveValue`, `RemoveRange` and `Refresh` (publish). -/
inductive Op (K V : Type) where
  | add (k : K) (v : V)
  | remove (k : K)
  | removeValue (k : K) (v : V)
  | removeRange (bs : Bound K × Bound K)
  | refresh

/-- A sorted association list from keys to value bags: the representation used
both for the inner map of the reader map and for the reference
`BTreeMap<K, Vec<V>>` of `quick.rs`. -/
abbrev InnerMap (K V : Type) : Type := List (K × List V)

/-- Point lookup in an association list, first entry with the given key
(`BTreeMap::get` / the map index used by the tests). -/
def mapLookup {K V : Type} [DecidableEq K] (k : K) : InnerMap K V → Option (List V)
  | [] => none
  | (k₁, bag) :: rest => if k₁ = k then some bag else mapLookup k rest

/-- Removes the first occurrence of `v` from a bag, keeping the rest in
order.  Modelled from the spec: `ValueBag.remove_value` "removes exactly one
occurrence equal to v (first occurrence by bag order if duplicates exist)". -/
def removeFirst {V : Type} [DecidableEq V] (v : V) : List V → List V
  | [] => []
  | x :: rest => if x = v then rest else x :: removeFirst v rest

/-- Modelled from the spec: `Inner Map.upsert_insert(k, v)` — "if key absent,
create bag with single value; else append to existing bag", keeping the map
sorted by key; appending matches the default insertion-order bag policy. -/
def InnerMap.upsert_insert {K V : Type} [LinearOrder K] (k : K) (v : V) :
    InnerMap K V → InnerMap K V
  | [] => [(k, [v])]
  | (k₁, bag) :: rest =>
    if k < k₁ then (k, [v]) :: (k₁, bag) :: rest
    else if k = k₁ then (k₁, bag ++ [v]) :: rest
    else (k₁, bag) :: InnerMap.upsert_insert k v rest

/-- Modelled from the spec: `Inner Map.remove_entry(k)` — "deletes key and its
whole bag; no-op (not an error) if key absent". -/
def InnerMap.remove_entry {K V : Type} [DecidableEq K] (k : K) (m : InnerMap K V) :
    InnerMap K V :=
  m.filter (fun e => decide (e.1 ≠ k))

/-- Modelled from the spec: `Inner Map.remove_value(k, v)` — "locates the bag
for k, removes one matching value"; the key "is *not* auto-deleted — the empty
bag persists as a visible, present-but-empty entry". -/
def InnerMap.remove_value {K V : Type} [DecidableEq K] [DecidableEq V] (k : K) (v : V)
    (m : InnerMap K V) : InnerMap K V :=
  m.map (fun e => if e.1 = k then (e.1, removeFirst v e.2) else e)

/-- Modelled from the spec: `Inner Map.remove_range(bounds)` — "deletes every
key whose value falls within the given (possibly open/unbounded) bound pair;
equivalent to repeated remove_entry over the matched key set". -/
def InnerMap.remove_range {K V : Type} [LinearOrder K] (bs : Bound K × Bound K)
    (m : InnerMap K V) : InnerMap K V :=
  m.filter (fun e => !(rangeContains bs e.1))

/-- Effect of a single logged operation on an inner map; `refresh` is not a
map operation and leaves the copy unchanged. -/
def applyOp {K V : Type} [LinearOrder K] [DecidableEq V] (m : InnerMap K V) :
    Op K V → InnerMap K V
  | .add k v => m.upsert_insert k v
  | .remove k => m.remove_entry k
  | .removeValue k v => m.remove_value k v
  | .removeRange bs => m.remove_range bs
  | .refresh => m

/-- Modelled from the spec: the left-right map state behind a
`WriteHandle`/`ReadHandle` pair — a read copy visible to readers, a write copy
to which every mutation is eagerly applied, and the buffered operation log
that `publish()` replays onto the read copy. -/
structure LRMap (K V : Type) where
  readCopy : InnerMap K V
  writeCopy : InnerMap K V
  log : List (Op K V)

/-- The freshly constructed map of `reader_map::new()`: both copies empty,
empty log. -/
def LRMap.empty {K V : Type} : LRMap K V := ⟨[], [], []⟩

/-- Modelled from the spec: `WriteHandle::insert(k, v)` "logs an Insert and
eagerly applies it to the current write copy". -/
def LRMap.insert {K V : Type} [LinearOrder K] [DecidableEq V] (k : K) (v : V)
    (m : LRMap K V) : LRMap K V :=
  ⟨m.readCopy, m.writeCopy.upsert_insert k v, m.log ++ [Op.add k v]⟩

/-- Modelled from the spec: `WriteHandle::remove_entry(k)`, logging plus eager
local application. -/
def LRMap.remove_entry {K V : Type} [LinearOrder K] [DecidableEq V] (k : K)
    (m : LRMap K V) : LRMap K V :=
  ⟨m.readCopy, m.writeCopy.remove_entry k, m.log ++ [Op.remove k]⟩

/-- Modelled from the spec: `WriteHandle::remove_value(k, v)`, logging plus
eager local application. -/
def LRMap.remove_value {K V : Type} [LinearOrder K] [DecidableEq V] (k : K) (v : V)
    (m : LRMap K V) : LRMap K V :=
  ⟨m.readCopy, m.writeCopy.remove_value k v, m.log ++ [Op.removeValue k v]⟩

/-- Modelled from the spec: `WriteHandle::remove_range(bounds)`, logging plus
eager local application. -/
def LRMap.remove_range {K V : Type} [LinearOrder K] [DecidableEq V]
    (bs : Bound K × Bound K) (m : LRMap K V) : LRMap K V :=
  ⟨m.readCopy, m.writeCopy.remove_range bs, m.log ++ [Op.removeRange bs]⟩

/-- Modelled from the spec: `WriteHandle::publish()` — "drain the buffered
operation log in FIFO order and apply each operation to the read copy", swap
the roles, and "clear the operation log".  After the swap the up-to-date copy
is the one readers observe, so observably the read state becomes the replay of
the log onto the previous read state. -/
def LRMap.publish {K V : Type} [LinearOrder K] [DecidableEq V] (m : LRMap K V) :
    LRMap K V :=
  ⟨m.log.foldl applyOp m.readCopy, m.writeCopy, []⟩

/-- Modelled from the spec: `ReadHandle::get(k)` — lookup against the current
read copy, `None` if absent. -/
def LRMap.get {K V : Type} [DecidableEq K] (m : LRMap K V) (k : K) : Option (List V) :=
  mapLookup k m.readCopy

/-- Modelled from the spec: `ReadHandle::len()` — "number of present keys
(including present-but-empty bags) in the current read copy". -/
def LRMap.len {K V : Type} (m : LRMap K V) : Nat :=
  m.readCopy.length

/-- Modelled from the spec: the read guard's `keys()` — key sequence of the
current read copy, in key order. -/
def LRMap.keys {K V : Type} (m : LRMap K V) : List K :=
  m.readCopy.map Prod.fst

/-- Modelled from the spec: `ReadHandle::enter()`'s guard — a snapshot of the
entire current read copy. -/
def LRMap.enter {K V : Type} (m : LRMap K V) : InnerMap K V :=
  m.readCopy

/-- Modelled from the spec: a `ReadHandle` whose map may have been torn down
("map destroyed"); `state = none` models the writer side being gone. -/
structure ReadHandle (K V : Type) where
  state : Option (LRMap K V)

/-- Modelled from the spec: `ReadHandle::enter()` "returns `None` only if the
map's writer side has been torn down entirely". -/
def ReadHandle.enter {K V : Type} (r : ReadHandle K V) : Option (InnerMap K V) :=
  r.state.map LRMap.enter

/-- Modelled from the spec: `ReadHandle::get(k)` through a possibly torn-down
handle; on a live map it always produces an answer (`some` or `none`). -/
def ReadHandle.get {K V : Type} [DecidableEq K] (r : ReadHandle K V) (k : K) :
    Option (Option (List V)) :=
  r.state.map (fun m => m.get k)

/-- From `quick.rs`: the reference model of the tests is a
`BTreeMap<K, Vec<V>>`, i.e. a sorted association list from keys to vectors of
values. -/
abbrev RefMap (K V : Type) : Type := List (K × List V)

/-- From `quick.rs`, `do_ops` arm `Add`:
`write_ref.entry(k).or_default().push(v)` — create an empty vector for an
absent key, then push `v`; `BTreeMap` keeps keys sorted. -/
def RefMap.add {K V : Type} [LinearOrder K] (k : K) (v : V) : RefMap K V → RefMap K V
  | [] => [(k, [v])]
  | (k₁, bag) :: rest =>
    if k < k₁ then (k, [v]) :: (k₁, bag) :: rest
    else if k = k₁ then (k₁, bag ++ [v]) :: rest
    else (k₁, bag) :: RefMap.add k v rest

/-- From `quick.rs`, `do_ops` arm `Remove`: `write_ref.remove(k)` deletes the
entry for `k`, if any. -/
def RefMap.remove {K V : Type} [DecidableEq K] (k : K) (m : RefMap K V) : RefMap K V :=
  m.filter (fun e => decide (e.1 ≠ k))

/-- Rust `Iterator::position`: index of the first element equal to `v`, as in
`values.iter_mut().position(|value| value == v)` in `do_ops`. -/
def positionOf {V : Type} [DecidableEq V] (v : V) : List V → Option Nat
  | [] => none
  | x :: rest => if x = v then some 0 else (positionOf v rest).map (· + 1)

/-- Rust `Vec::swap_remove(pos)`: overwrite position `pos` with the last
element, then drop the last element. -/
def swapRemove {V : Type} (l : List V) (pos : Nat) : List V :=
  match l.getLast? with
  | none => l
  | some last => (l.set pos last).dropLast

/-- From `quick.rs`, `do_ops` arm `RemoveValue` restricted to one vector: find
the position of the first value equal to `v` and `swap_remove` it; no match
leaves the vector unchanged. -/
def refBagRemove {V : Type} [DecidableEq V] (v : V) (l : List V) : List V :=
  match positionOf v l with
  | some pos => swapRemove l pos
  | none => l

/-- From `quick.rs`, `do_ops` arm `RemoveValue`:
`write_ref.get_mut(k).and_then(|values| ...)` — update the vector under `k`
when present, removing one matching value; the (possibly now empty) entry
stays in the map. -/
def RefMap.remove_value {K V : Type} [DecidableEq K] [DecidableEq V] (k : K) (v : V)
    (m : RefMap K V) : RefMap K V :=
  m.map (fun e => if e.1 = k then (e.1, refBagRemove v e.2) else e)

/-- From `quick.rs`, `do_ops` arm `RemoveRange`:
`write_ref.extract_if(|k, _| range.contains(k)).collect()` — every entry whose
key the range contains is extracted; the remainder is kept. -/
def RefMap.remove_range {K V : Type} [LinearOrder K] (bs : Bound K × Bound K)
    (m : RefMap K V) : RefMap K V :=
  m.filter (fun e => !(rangeContains bs e.1))

/-- From `quick.rs`: one step of `do_ops`, threading the reader map under test
together with the reference maps `write_ref` and `read_ref`; `Refresh`
publishes and copies `write_ref` into `read_ref`. -/
def doOp {K V : Type} [LinearOrder K] [DecidableEq V]
    (st : LRMap K V × RefMap K V × RefMap K V) (op : Op K V) :
    LRMap K V × RefMap K V × RefMap K V :=
  match op with
  | .add k v => (st.1.insert k v, RefMap.add k v st.2.1, st.2.2)
  | .remove k => (st.1.remove_entry k, RefMap.remove k st.2.1, st.2.2)
  | .removeValue k v => (st.1.remove_value k v, RefMap.remove_value k v st.2.1, st.2.2)
  | .removeRange bs => (st.1.remove_range bs, RefMap.remove_range bs st.2.1, st.2.2)
  | .refresh => (st.1.publish, st.2.1, st.2.1)

/-- From `quick.rs`: `do_ops` over a whole operation sequence. -/
def do_ops {K V : Type} [LinearOrder K] [DecidableEq V] (ops : List (Op K V))
    (st : LRMap K V × RefMap K V × RefMap K V) : LRMap K V × RefMap K V × RefMap K V :=
  ops.foldl doOp st

/-- The initial state of every property test in `quick.rs`: a fresh map from
`reader_map::new()` and two empty `BTreeMap`s. -/
def initState {K V : Type} : LRMap K V × RefMap K V × RefMap K V :=
  (LRMap.empty, [], [])

/-- Bag-wise multiset agreement of two optional bags, the comparison performed
by `assert_maps_equivalent` in `quick.rs` (both sides sorted, then compared). -/
def optBagPerm {V : Type} : Option (List V) → Option (List V) → Prop
  | some x, some y => List.Perm x y
  | none, none => True
  | _, _ => False

/-- Entry-wise agreement: same key, bags equal as multisets. -/
def entryRel {K V : Type} (e f : K × List V) : Prop :=
  e.1 = f.1 ∧ List.Perm e.2 f.2

/-- Two key→bag association lists agree key for key, with bags equal as
multisets. -/
def mapsEquiv {K V : Type} (a b : List (K × List V)) : Prop :=
  List.Forall₂ entryRel a b

/-- Modelled from the spec: the left-right coherence invariant — replaying the
buffered log onto the read copy reproduces the eagerly updated write copy. -/
def logCoherent {K V : Type} [LinearOrder K] [DecidableEq V] (m : LRMap K V) : Prop :=
  m.log.foldl applyOp m.readCopy = m.writeCopy

/-- Full invariant of the `do_ops` test loop: the map is log-coherent, the
write copy tracks `write_ref`, and the read copy tracks `read_ref`. -/
def refInv {K V : Type} [LinearOrder K] [DecidableEq V]
    (st : LRMap K V × RefMap K V × RefMap K V) : Prop :=
  logCoherent st.1 ∧ mapsEquiv st.1.writeCopy st.2.1 ∧ mapsEquiv st.1.readCopy st.2.2

/-- Keys of an inner map copy are strictly increasing (the `BTreeMap`-style
sortedness every copy maintains). -/
def keysSorted {K V : Type} [LinearOrder K] (m : InnerMap K V) : Prop :=
  List.Pairwise (· < ·) (m.map Prod.fst)

/-- Both copies of the left-right map keep their keys strictly sorted. -/
def copiesSorted {K V : Type} [LinearOrder K] (m : LRMap K V) : Prop :=
  keysSorted m.readCopy ∧ keysSorted m.writeCopy

theorem mapsEquiv.refl {K V : Type} (a : List (K × List V)) : mapsEquiv a a :=
  List.forall₂_same.2 (fun _ _ => ⟨rfl, List.Perm.refl _⟩)

theorem mapsEquiv.keys_eq {K V : Type} {a b : List (K × List V)} (h : mapsEquiv a b) :
    a.map Prod.fst = b.map Prod.fst := by
  induction h with
  | nil => rfl
  | cons h₁ _ ih => simpa [h₁.1] using ih

theorem mapsEquiv.length_eq {K V : Type} {a b : List (K × List V)} (h : mapsEquiv a b) :
    a.length = b.length :=
  List.Forall₂.length_eq h

theorem mapsEquiv.lookup_perm {K V : Type} [DecidableEq K] {a b : List (K × List V)}
    (h : mapsEquiv a b) (k : K) : optBagPerm (mapLookup k a) (mapLookup k b) := by
  induction h with
  | nil => simp [mapLookup, optBagPerm]
  | @cons e f a₁ b₁ h₁ _ ih =>
    obtain ⟨ke, be⟩ := e
    obtain ⟨kf, bf⟩ := f
    obtain ⟨hkey, hbag⟩ := h₁
    dsimp at hkey
    subst hkey
    by_cases hk : ke = k
    · simp [mapLookup, hk, optBagPerm]
      exact hbag
    · simpa [mapLookup, hk] using ih

theorem removeFirst_eq_erase {V : Type} [DecidableEq V] (v : V) (l : List V) :
    removeFirst v l = l.erase v := by
  induction l with
  | nil => rfl
  | cons x rest ih =>
    by_cases h : x = v
    · subst h
      simp [removeFirst, List.erase_cons_head]
    · simp [removeFirst, h, List.erase_cons_tail, ih]

theorem positionOf_eq_none_not_mem {V : Type} [DecidableEq V] {v : V} {l : List V}
    (h : positionOf v l = none) : v ∉ l := by
  induction l with
  | nil => simp
  | cons x rest ih =>
    by_cases hx : x = v
    · simp [positionOf, hx] at h
    · rcases hpos : positionOf v rest with _ | p
      · simp [hpos, Ne.symm hx, ih hpos]
      · simp [positionOf, hx, hpos] at h

theorem positionOf_eq_some_split {V : Type} [DecidableEq V] {v : V} {l : List V} {pos : Nat}
    (h : positionOf v l = some pos) :
    ∃ l₁ l₂, l = l₁ ++ v :: l₂ ∧ v ∉ l₁ ∧ pos = l₁.length := by
  induction l generalizing pos with
  | nil => simp [positionOf] at h
  | cons x rest ih =>
    by_cases hx : x = v
    · subst hx
      simp [positionOf] at h
      exact ⟨[], rest, by simp, by simp, h.symm⟩
    · rcases hpos : positionOf v rest with _ | p
      · simp [positionOf, hx, hpos] at h
      · simp [positionOf, hx, hpos] at h
        obtain ⟨l₁, l₂, hsplit, hnm, hlen⟩ := ih hpos
        exact ⟨x :: l₁, l₂, by simp [hsplit], by simp [Ne.symm hx, hnm], by simp [← h, hlen]⟩

theorem set_append_length {V : Type} (l₁ : List V) (x y : V) (l₂ : List V) :
    (l₁ ++ x :: l₂).set l₁.length y = l₁ ++ y :: l₂ := by
  induction l₁ with
  | nil => rfl
  | cons a t ih => simp [List.set, ih]

/-- `refBagRemove` (the `position` + `swap_remove` of `do_ops`) removes the
same multiset of values as erasing the first occurrence. -/
theorem refBagRemove_perm_erase {V : Type} [DecidableEq V] (v : V) (l : List V) :
    List.Perm (refBagRemove v l) (l.erase v) := by
  rcases hpos : positionOf v l with _ | pos
  · rw [refBagRemove, hpos, List.erase_of_not_mem (positionOf_eq_none_not_mem hpos)]
  · obtain ⟨l₁, l₂, hsplit, hnm, hlen⟩ := positionOf_eq_some_split hpos
    subst hsplit
    subst hlen
    rw [refBagRemove, hpos, List.erase_append_right _ hnm, List.erase_cons_head]
    dsimp only
    rcases List.eq_nil_or_concat l₂ with h₂ | ⟨i₂, last, h₂⟩
    · subst h₂
      unfold swapRemove
      have h1 : (l₁ ++ [v]).getLast? = some v := List.getLast?_concat l₁
      have h2 : (l₁ ++ [v]).set l₁.length v = l₁ ++ [v] := set_append_length l₁ v v []
      rw [show l₁ ++ v :: ([] : List V) = l₁ ++ [v] from rfl, h1]
      dsimp only
      rw [h2, List.dropLast_concat]
      simp
    · rw [List.concat_eq_append] at h₂
      subst h₂
      have hlast : (l₁ ++ v :: (i₂ ++ [last])).getLast? = some last := by
        rw [show l₁ ++ v :: (i₂ ++ [last]) = (l₁ ++ v :: i₂) ++ [last] by simp,
          List.getLast?_concat]
      unfold swapRemove
      rw [hlast]
      dsimp only
      rw [set_append_length,
        show l₁ ++ last :: (i₂ ++ [last]) = (l₁ ++ last :: i₂) ++ [last] by simp,
        List.dropLast_concat]
      exact List.Perm.append_left l₁
        (List.perm_append_singleton last i₂).symm

theorem mapsEquiv.add {K V : Type} [LinearOrder K] {a b : List (K × List V)}
    (h : mapsEquiv a b) (k : K) (v : V) :
    mapsEquiv (InnerMap.upsert_insert k v a) (RefMap.add k v b) := by
  induction h with
  | nil => exact List.Forall₂.cons ⟨rfl, List.Perm.refl _⟩ List.Forall₂.nil
  | @cons e f a₁ b₁ h₁ htail ih =>
    obtain ⟨ke, be⟩ := e
    obtain ⟨kf, bf⟩ := f
    obtain ⟨hkey, hbag⟩ := h₁
    dsimp at hkey
    subst hkey
    by_cases h1 : k < ke
    · simp only [InnerMap.upsert_insert, RefMap.add, if_pos h1]
      exact List.Forall₂.cons ⟨rfl, List.Perm.refl _⟩
        (List.Forall₂.cons ⟨rfl, hbag⟩ htail)
    · by_cases h2 : k = ke
      · simp only [InnerMap.upsert_insert, RefMap.add, if_neg h1, if_pos h2]
        exact List.Forall₂.cons ⟨rfl, hbag.append (List.Perm.refl _)⟩ htail
      · simp only [InnerMap.upsert_insert, RefMap.add, if_neg h1, if_neg h2]
        exact List.Forall₂.cons ⟨rfl, hbag⟩ ih

theorem mapsEquiv.filter_key {K V : Type} (p : K → Bool) {a b : List (K × List V)}
    (h : mapsEquiv a b) :
    mapsEquiv (a.filter (fun e => p e.1)) (b.filter (fun e => p e.1)) := by
  induction h with
  | nil => exact List.Forall₂.nil
  | @cons e f a₁ b₁ h₁ _ ih =>
    obtain ⟨ke, be⟩ := e
    obtain ⟨kf, bf⟩ := f
    obtain ⟨hkey, hbag⟩ := h₁
    dsimp at hkey
    subst hkey
    by_cases hp : p ke = true
    · simp only [List.filter_cons, hp, if_pos trivial]
      exact List.Forall₂.cons ⟨rfl, hbag⟩ ih
    · simp only [List.filter_cons]
      rw [if_neg (by simpa using hp), if_neg (by simpa using hp)]
      exact ih

theorem mapsEquiv.rm_value {K V : Type} [DecidableEq K] [DecidableEq V]
    {a b : List (K × List V)} (h : mapsEquiv a b) (k : K) (v : V) :
    mapsEquiv (InnerMap.remove_value k v a) (RefMap.remove_value k v b) := by
  induction h with
  | nil => exact List.Forall₂.nil
  | @cons e f a₁ b₁ h₁ _ ih =>
    obtain ⟨ke, be⟩ := e
    obtain ⟨kf, bf⟩ := f
    obtain ⟨hkey, hbag⟩ := h₁
    dsimp at hkey
    subst hkey
    simp only [InnerMap.remove_value, RefMap.remove_value, List.map_cons]
    by_cases hk : ke = k
    · rw [if_pos hk, if_pos hk]
      refine List.Forall₂.cons ⟨rfl, ?_⟩ ih
      rw [removeFirst_eq_erase]
      exact (hbag.erase v).trans (refBagRemove_perm_erase v bf).symm
    · rw [if_neg hk, if_neg hk]
      exact List.Forall₂.cons ⟨rfl, hbag⟩ ih

theorem refInv_init {K V : Type} [LinearOrder K] [DecidableEq V] :
    refInv (initState : LRMap K V × RefMap K V × RefMap K V) :=
  ⟨rfl, List.Forall₂.nil, List.Forall₂.nil⟩

theorem refInv_doOp {K V : Type} [LinearOrder K] [DecidableEq V]
    {st : LRMap K V × RefMap K V × RefMap K V} (h : refInv st) (op : Op K V) :
    refInv (doOp st op) := by
  obtain ⟨hlog, hw, hr⟩ := h
  cases op with
  | add k v =>
    refine ⟨?_, hw.add k v, hr⟩
    show ((st.1.log ++ [Op.add k v]).foldl applyOp st.1.readCopy) = _
    rw [List.foldl_append, hlog]
    rfl
  | remove k =>
    refine ⟨?_, ?_, hr⟩
    · have hfold : ((st.1.log ++ [Op.remove k]).foldl applyOp st.1.readCopy) =
          InnerMap.remove_entry k st.1.writeCopy := by
        rw [List.foldl_append, hlog]
        rfl
      exact hfold
    · exact hw.filter_key (fun k₁ => decide (k₁ ≠ k))
  | removeValue k v =>
    refine ⟨?_, hw.rm_value k v, hr⟩
    show ((st.1.log ++ [Op.removeValue k v]).foldl applyOp st.1.readCopy) =
      st.1.writeCopy.remove_value k v
    rw [List.foldl_append, hlog]
    rfl
  | removeRange bs =>
    refine ⟨?_, ?_, hr⟩
    · have hfold : ((st.1.log ++ [Op.removeRange bs]).foldl applyOp st.1.readCopy) =
          InnerMap.remove_range bs st.1.writeCopy := by
        rw [List.foldl_append, hlog]
        rfl
      exact hfold
    · exact hw.filter_key (fun k₁ => !(rangeContains bs k₁))
  | refresh =>
    refine ⟨hlog, hw, ?_⟩
    show mapsEquiv (st.1.log.foldl applyOp st.1.readCopy) st.2.1
    rw [hlog]
    exact hw

theorem refInv_do_ops {K V : Type} [LinearOrder K] [DecidableEq V]
    (ops : List (Op K V)) {st : LRMap K V × RefMap K V × RefMap K V} (h : refInv st) :
    refInv (do_ops ops st) := by
  induction ops generalizing st with
  | nil => exact h
  | cons op rest ih => exact ih (refInv_doOp h op)

theorem mapLookup_cons {K V : Type} [DecidableEq K] (k k₁ : K) (bag : List V)
    (rest : InnerMap K V) :
    mapLookup k ((k₁, bag) :: rest) = if k₁ = k then some bag else mapLookup k rest := rfl

theorem mapLookup_filter_key {K V : Type} [DecidableEq K] (p : K → Bool) (k : K)
    (m : InnerMap K V) :
    mapLookup k (m.filter (fun e => p e.1)) = if p k then mapLookup k m else none := by
  induction m with
  | nil => simp [mapLookup]
  | cons e rest ih =>
    obtain ⟨k₁, bag⟩ := e
    by_cases hk : k₁ = k
    · subst hk
      by_cases hp : p k₁ = true
      · simp [List.filter_cons, hp, mapLookup]
      · simp only [Bool.not_eq_true] at hp
        simp [List.filter_cons, hp, mapLookup, ih]
    · by_cases hp : p k₁ = true
      · simp [List.filter_cons, hp, mapLookup, hk, ih]
      · simp only [Bool.not_eq_true] at hp
        simp [List.filter_cons, hp, mapLookup, hk, ih]

theorem mapLookup_rm_value {K V : Type} [DecidableEq K] [DecidableEq V] (k k' : K) (v : V)
    (m : InnerMap K V) :
    mapLookup k' (InnerMap.remove_value k v m) =
      if k' = k then (mapLookup k' m).map (removeFirst v) else mapLookup k' m := by
  induction m with
  | nil => simp [mapLookup, InnerMap.remove_value]
  | cons e rest ih =>
    obtain ⟨k₁, bag⟩ := e
    rw [show InnerMap.remove_value k v ((k₁, bag) :: rest)
        = (if k₁ = k then (k₁, removeFirst v bag) else (k₁, bag))
          :: InnerMap.remove_value k v rest from rfl]
    by_cases h1 : k₁ = k
    · rw [if_pos h1]
      by_cases h2 : k₁ = k'
      · subst h2
        subst h1
        simp [mapLookup_cons]
      · have hne : ¬k' = k := fun hc => h2 (h1.trans hc.symm)
        simp [mapLookup_cons, h2, hne, ih]
    · rw [if_neg h1]
      by_cases h2 : k₁ = k'
      · subst h2
        have hne : ¬k₁ = k := h1
        simp [mapLookup_cons, Ne.symm hne, h1]
      · simp [mapLookup_cons, h2, ih]

theorem mapLookup_some_mem {K V : Type} [DecidableEq K] {k : K} {b : List V}
    {m : InnerMap K V} (h : mapLookup k m = some b) : (k, b) ∈ m := by
  induction m with
  | nil => simp [mapLookup] at h
  | cons e rest ih =>
    obtain ⟨k₁, bag⟩ := e
    rw [mapLookup_cons] at h
    by_cases hk : k₁ = k
    · rw [if_pos hk] at h
      subst hk
      obtain rfl : bag = b := by simpa using h
      exact List.mem_cons_self _ _
    · rw [if_neg hk] at h
      exact List.mem_cons_of_mem _ (ih h)

theorem mapLookup_none_keys {K V : Type} [DecidableEq K] {k : K} {m : InnerMap K V}
    (h : mapLookup k m = none) : ∀ e ∈ m, e.1 ≠ k := by
  induction m with
  | nil => simp
  | cons e rest ih =>
    obtain ⟨k₁, bag⟩ := e
    rw [mapLookup_cons] at h
    by_cases hk : k₁ = k
    · rw [if_pos hk] at h
      exact absurd h (by simp)
    · rw [if_neg hk] at h
      intro f hf
      rcases List.mem_cons.1 hf with hf | hf
      · rw [hf]
        exact hk
      · exact ih h f hf

theorem removeFirst_split {V : Type} [DecidableEq V] {v : V} {l : List V} (h : v ∈ l) :
    ∃ l₁ l₂, l = l₁ ++ v :: l₂ ∧ v ∉ l₁ ∧ removeFirst v l = l₁ ++ l₂ := by
  induction l with
  | nil => simp at h
  | cons x rest ih =>
    by_cases hx : x = v
    · subst hx
      exact ⟨[], rest, rfl, by simp, by simp [removeFirst]⟩
    · have hv : v ∈ rest := by
        rcases List.mem_cons.1 h with h' | h'
        · exact absurd h'.symm hx
        · exact h'
      obtain ⟨l₁, l₂, hsplit, hnm, hrm⟩ := ih hv
      exact ⟨x :: l₁, l₂, by simp [hsplit], by simp [Ne.symm hx, hnm],
        by simp [removeFirst, hx, hrm]⟩

/-- After a `publish()` on a log-coherent map, every read handle lookup
answers from what was the write copy. -/
theorem get_publish {K V : Type} [LinearOrder K] [DecidableEq V] {m : LRMap K V}
    (hinv : logCoherent m) (k : K) : m.publish.get k = mapLookup k m.writeCopy := by
  show mapLookup k (m.log.foldl applyOp m.readCopy) = _
  rw [hinv]

theorem logCoherent_empty {K V : Type} [LinearOrder K] [DecidableEq V] :
    logCoherent (LRMap.empty : LRMap K V) := rfl

theorem logCoherent_insert {K V : Type} [LinearOrder K] [DecidableEq V] {m : LRMap K V}
    (h : logCoherent m) (k : K) (v : V) : logCoherent (m.insert k v) := by
  show (m.log ++ [Op.add k v]).foldl applyOp m.readCopy = _
  rw [List.foldl_append, h]
  rfl

theorem logCoherent_remove_entry {K V : Type} [LinearOrder K] [DecidableEq V]
    {m : LRMap K V} (h : logCoherent m) (k : K) : logCoherent (m.remove_entry k) := by
  have hfold : (m.log ++ [Op.remove k]).foldl applyOp m.readCopy
      = InnerMap.remove_entry k m.writeCopy := by
    rw [List.foldl_append, h]
    rfl
  exact hfold

theorem logCoherent_rm_value {K V : Type} [LinearOrder K] [DecidableEq V]
    {m : LRMap K V} (h : logCoherent m) (k : K) (v : V) :
    logCoherent (m.remove_value k v) := by
  show (m.log ++ [Op.removeValue k v]).foldl applyOp m.readCopy = _
  rw [List.foldl_append, h]
  rfl

theorem logCoherent_rm_range {K V : Type} [LinearOrder K] [DecidableEq V]
    {m : LRMap K V} (h : logCoherent m) (bs : Bound K × Bound K) :
    logCoherent (m.remove_range bs) := by
  have hfold : (m.log ++ [Op.removeRange bs]).foldl applyOp m.readCopy
      = InnerMap.remove_range bs m.writeCopy := by
    rw [List.foldl_append, h]
    rfl
  exact hfold

theorem logCoherent_publish {K V : Type} [LinearOrder K] [DecidableEq V]
    {m : LRMap K V} (h : logCoherent m) : logCoherent m.publish := by
  show ([] : List (Op K V)).foldl applyOp (m.log.foldl applyOp m.readCopy) = m.writeCopy
  exact h

theorem mapLookup_remove_range {K V : Type} [LinearOrder K] (bs : Bound K × Bound K)
    (k : K) (m : InnerMap K V) :
    mapLookup k (InnerMap.remove_range bs m)
      = if rangeContains bs k then none else mapLookup k m := by
  have h := mapLookup_filter_key (fun k₁ => !(rangeContains bs k₁)) k m
  by_cases hc : rangeContains bs k = true
  · simp only [hc, Bool.not_true, if_neg] at h
    simp only [InnerMap.remove_range, hc, if_pos]
    simpa using h
  · simp only [Bool.not_eq_true] at hc
    simp only [hc, Bool.not_false, if_pos] at h
    simp only [InnerMap.remove_range, hc]
    simpa using h

theorem mapLookup_remove_entry {K V : Type} [DecidableEq K] (k k' : K)
    (m : InnerMap K V) :
    mapLookup k' (InnerMap.remove_entry k m)
      = if k' = k then none else mapLookup k' m := by
  have h := mapLookup_filter_key (fun k₁ => decide (k₁ ≠ k)) k' m
  by_cases hc : k' = k
  · simp only [hc] at h ⊢
    simp only [InnerMap.remove_entry]
    simpa using h
  · simp only [if_neg hc]
    simp only [InnerMap.remove_entry]
    simpa [hc] using h

theorem remove_entry_absent_noop {K V : Type} [DecidableEq K] {k : K}
    {m : InnerMap K V} (h : mapLookup k m = none) :
    InnerMap.remove_entry k m = m := by
  unfold InnerMap.remove_entry
  apply List.filter_eq_self.mpr
  intro e he
  simpa using mapLookup_none_keys h e he

theorem rm_value_absent_noop {K V : Type} [DecidableEq K] [DecidableEq V] {k : K}
    (v : V) {m : InnerMap K V} (h : mapLookup k m = none) :
    InnerMap.remove_value k v m = m := by
  induction m with
  | nil => rfl
  | cons e rest ih =>
    obtain ⟨k₁, bag⟩ := e
    rw [mapLookup_cons] at h
    by_cases hk : k₁ = k
    · rw [if_pos hk] at h
      exact absurd h (by simp)
    · rw [if_neg hk] at h
      rw [show InnerMap.remove_value k v ((k₁, bag) :: rest)
          = (if k₁ = k then (k₁, removeFirst v bag) else (k₁, bag))
            :: InnerMap.remove_value k v rest from rfl]
      rw [if_neg hk, ih h]

/-- C1: for every finite operation sequence driven through the write handle as
in `do_ops`, after a final `publish()` the snapshot observed through the read
handle — ordered key sequence, length, and the bag under every key as a
multiset — equals the reference multimap `write_ref` obtained by replaying
that exact sequence, in order, onto an initially empty ordered map of
vectors. -/
theorem publish_matches_reference {K V : Type} [LinearOrder K] [DecidableEq V]
    (ops : List (Op K V)) :
    ((do_ops ops initState).1.publish).keys = ((do_ops ops initState).2.1).map Prod.fst ∧
    ((do_ops ops initState).1.publish).len = ((do_ops ops initState).2.1).length ∧
    ∀ k : K, optBagPerm (((do_ops ops initState).1.publish).get k)
      (mapLookup k (do_ops ops initState).2.1) := by
  obtain ⟨hlog, hw, -⟩ := refInv_do_ops ops (refInv_init (K := K) (V := V))
  have hpub : ((do_ops ops initState).1.publish).readCopy
      = (do_ops ops initState).1.writeCopy := hlog
  refine ⟨?_, ?_, ?_⟩
  · show ((do_ops ops initState).1.publish).readCopy.map Prod.fst = _
    rw [hpub]
    exact hw.keys_eq
  · show ((do_ops ops initState).1.publish).readCopy.length = _
    rw [hpub]
    exact hw.length_eq
  · intro k
    show optBagPerm (mapLookup k ((do_ops ops initState).1.publish).readCopy) _
    rw [hpub]
    exact hw.lookup_perm k

/-- C2: for every operation sequence, the state observed through the read
handle (keys, length, bag under every key) is exactly `read_ref` — the replay
of the operations up to and including the most recent `publish()` (the empty
map before the first publish); operations issued after that publish are not
visible. -/
theorem reader_sees_last_publish {K V : Type} [LinearOrder K] [DecidableEq V]
    (ops : List (Op K V)) :
    (do_ops ops initState).1.keys = ((do_ops ops initState).2.2).map Prod.fst ∧
    (do_ops ops initState).1.len = ((do_ops ops initState).2.2).length ∧
    ∀ k : K, optBagPerm ((do_ops ops initState).1.get k)
      (mapLookup k (do_ops ops initState).2.2) := by
  obtain ⟨-, -, hr⟩ := refInv_do_ops ops (refInv_init (K := K) (V := V))
  exact ⟨hr.keys_eq, hr.length_eq, hr.lookup_perm⟩

/-- C3: on any log-coherent map state, `remove_range(bounds)` followed by
`publish()` removes exactly the keys within the bounds: a key the bound pair
contains reads as absent, and every other key keeps its bag unchanged. -/
theorem remove_range_publish_exact {K V : Type} [LinearOrder K] [DecidableEq V]
    (m : LRMap K V) (bs : Bound K × Bound K) (k : K) (hinv : logCoherent m) :
    ((m.remove_range bs).publish).get k =
      if rangeContains bs k then none else mapLookup k m.writeCopy := by
  rw [get_publish (logCoherent_rm_range hinv bs) k]
  have h1 : mapLookup k (m.remove_range bs).writeCopy
      = mapLookup k (InnerMap.remove_range bs m.writeCopy) := rfl
  rw [h1, mapLookup_remove_range]

/-- Witness for C3 at a concrete state: removing the range `[0, ∞)` and
publishing makes key `0` read as absent. -/
theorem remove_range_publish_exact_witness :
    logCoherent (⟨[((0 : Int), [(1 : Int)])], [((0 : Int), [(1 : Int)])], []⟩
      : LRMap Int Int) ∧
    ((LRMap.remove_range (Bound.included (0 : Int), Bound.unbounded)
        (⟨[((0 : Int), [(1 : Int)])], [((0 : Int), [(1 : Int)])], []⟩
          : LRMap Int Int)).publish).get 0 =
      (if rangeContains (Bound.included (0 : Int), Bound.unbounded) 0 then none
       else mapLookup 0 [((0 : Int), [(1 : Int)])]) :=
  ⟨rfl, remove_range_publish_exact _ _ 0 rfl⟩

/-- C4: if key `k` holds exactly the one value `v`, then `remove_value(k, v)`
followed by `publish()` leaves `k` present with an empty bag: `get k` answers
`some []` (not `none`), and `k` still appears in `keys()` and in the `enter()`
snapshot. -/
theorem remove_sole_value_leaves_present_empty {K V : Type} [LinearOrder K]
    [DecidableEq V] (m : LRMap K V) (k : K) (v : V) (hinv : logCoherent m)
    (hk : mapLookup k m.writeCopy = some [v]) :
    ((m.remove_value k v).publish).get k = some [] ∧
    k ∈ ((m.remove_value k v).publish).keys ∧
    (k, ([] : List V)) ∈ ((m.remove_value k v).publish).enter := by
  have hget : ((m.remove_value k v).publish).get k = some [] := by
    rw [get_publish (logCoherent_rm_value hinv k v) k]
    have h1 : mapLookup k (m.remove_value k v).writeCopy
        = mapLookup k (InnerMap.remove_value k v m.writeCopy) := rfl
    rw [h1, mapLookup_rm_value, if_pos rfl, hk]
    simp [removeFirst]
  have hmem : (k, ([] : List V)) ∈ ((m.remove_value k v).publish).readCopy :=
    mapLookup_some_mem hget
  exact ⟨hget, List.mem_map.2 ⟨(k, []), hmem, rfl⟩, hmem⟩

/-- Witness for C4: key `0` held the sole value `7`; after `remove_value` and
publish it is present with an empty bag. -/
theorem remove_sole_value_witness :
    logCoherent (⟨[((0 : Int), [(7 : Int)])], [((0 : Int), [(7 : Int)])], []⟩
      : LRMap Int Int) ∧
    mapLookup (0 : Int) [((0 : Int), [(7 : Int)])] = some [7] ∧
    ((LRMap.remove_value (0 : Int) (7 : Int)
        (⟨[((0 : Int), [(7 : Int)])], [((0 : Int), [(7 : Int)])], []⟩
          : LRMap Int Int)).publish).get 0 = some [] :=
  ⟨rfl, by simp [mapLookup],
    (remove_sole_value_leaves_present_empty
      (⟨[((0 : Int), [(7 : Int)])], [((0 : Int), [(7 : Int)])], []⟩ : LRMap Int Int)
      0 7 rfl (by simp [mapLookup])).1⟩

/-- C5: if the bag under `k` contains `v`, `remove_value(k, v)` followed by
`publish()` removes exactly the first occurrence of `v` (bag order): the bag
splits as `l₁ ++ v :: l₂` with `v ∉ l₁`, the published bag is `l₁ ++ l₂`, the
multiplicity of `v` drops by exactly one, the size by exactly one, and the key
stays present. -/
theorem remove_value_one_occurrence {K V : Type} [LinearOrder K] [DecidableEq V]
    (m : LRMap K V) (k : K) (v : V) (bag : List V) (hinv : logCoherent m)
    (hk : mapLookup k m.writeCopy = some bag) (hv : v ∈ bag) :
    ∃ l₁ l₂, bag = l₁ ++ v :: l₂ ∧ v ∉ l₁ ∧
      ((m.remove_value k v).publish).get k = some (l₁ ++ l₂) ∧
      (l₁ ++ l₂).count v = bag.count v - 1 ∧
      (l₁ ++ l₂).length = bag.length - 1 := by
  obtain ⟨l₁, l₂, hsplit, hnm, hrm⟩ := removeFirst_split hv
  refine ⟨l₁, l₂, hsplit, hnm, ?_, ?_, ?_⟩
  · rw [get_publish (logCoherent_rm_value hinv k v) k]
    have h1 : mapLookup k (m.remove_value k v).writeCopy
        = mapLookup k (InnerMap.remove_value k v m.writeCopy) := rfl
    rw [h1, mapLookup_rm_value, if_pos rfl, hk]
    simp [hrm]
  · subst hsplit
    simp only [List.count_append, List.count_cons_self]
    omega
  · subst hsplit
    simp only [List.length_append, List.length_cons]
    omega

/-- Witness for C5: inserting `5` twice under key `0` and removing one
occurrence leaves a bag with exactly one `5`, the key still present. -/
theorem remove_value_one_occurrence_witness :
    logCoherent (⟨[((0 : Int), [(5 : Int), 5])], [((0 : Int), [(5 : Int), 5])], []⟩
      : LRMap Int Int) ∧
    mapLookup (0 : Int) [((0 : Int), [(5 : Int), 5])] = some [5, 5] ∧
    (5 : Int) ∈ [(5 : Int), 5] ∧
    ∃ l₁ l₂, [(5 : Int), 5] = l₁ ++ 5 :: l₂ ∧ (5 : Int) ∉ l₁ ∧
      ((LRMap.remove_value (0 : Int) (5 : Int)
          (⟨[((0 : Int), [(5 : Int), 5])], [((0 : Int), [(5 : Int), 5])], []⟩
            : LRMap Int Int)).publish).get 0 = some (l₁ ++ l₂) ∧
      (l₁ ++ l₂).count 5 = [(5 : Int), 5].count 5 - 1 ∧
      (l₁ ++ l₂).length = [(5 : Int), 5].length - 1 :=
  ⟨rfl, by simp [mapLookup], by simp,
    remove_value_one_occurrence _ 0 5 [5, 5] rfl (by simp [mapLookup]) (by simp)⟩

/-- C10: `remove_value(k, v)` on an absent key `k` leaves everything
unchanged: the write copy is literally unchanged, and after the next publish
`get k` is still `none`, the length is unchanged and the whole snapshot equals
the one a plain publish would have produced. -/
theorem remove_value_absent_key_noop {K V : Type} [LinearOrder K] [DecidableEq V]
    (m : LRMap K V) (k : K) (v : V) (hinv : logCoherent m)
    (hk : mapLookup k m.writeCopy = none) :
    InnerMap.remove_value k v m.writeCopy = m.writeCopy ∧
    ((m.remove_value k v).publish).get k = none ∧
    ((m.remove_value k v).publish).len = m.publish.len ∧
    ((m.remove_value k v).publish).enter = m.publish.enter := by
  have hnoop : InnerMap.remove_value k v m.writeCopy = m.writeCopy :=
    rm_value_absent_noop v hk
  have h1 : ((m.remove_value k v).publish).enter = m.writeCopy := by
    have hc : logCoherent (m.remove_value k v) := logCoherent_rm_value hinv k v
    calc ((m.remove_value k v).publish).enter
        = (m.remove_value k v).writeCopy := hc
      _ = m.writeCopy := hnoop
  have h2 : m.publish.enter = m.writeCopy := hinv
  have henter : ((m.remove_value k v).publish).enter = m.publish.enter := by
    rw [h1, h2]
  refine ⟨hnoop, ?_, ?_, henter⟩
  · rw [get_publish (logCoherent_rm_value hinv k v) k]
    have h3 : mapLookup k (m.remove_value k v).writeCopy
        = mapLookup k (InnerMap.remove_value k v m.writeCopy) := rfl
    rw [h3, hnoop, hk]
  · show ((m.remove_value k v).publish).enter.length = m.publish.enter.length
    rw [henter]

/-- Witness for C10: key `0` is absent; `remove_value(0, 3)` plus publish
changes nothing. -/
theorem remove_value_absent_key_noop_witness :
    logCoherent (⟨[((1 : Int), [(2 : Int)])], [((1 : Int), [(2 : Int)])], []⟩
      : LRMap Int Int) ∧
    mapLookup (0 : Int) [((1 : Int), [(2 : Int)])] = none ∧
    ((LRMap.remove_value (0 : Int) (3 : Int)
        (⟨[((1 : Int), [(2 : Int)])], [((1 : Int), [(2 : Int)])], []⟩
          : LRMap Int Int)).publish).get 0 = none :=
  ⟨rfl, by simp [mapLookup],
    (remove_value_absent_key_noop
      (⟨[((1 : Int), [(2 : Int)])], [((1 : Int), [(2 : Int)])], []⟩ : LRMap Int Int)
      0 3 rfl (by simp [mapLookup])).2.1⟩

theorem mapLookup_upsert_isSome {K V : Type} [LinearOrder K] (k k' : K) (v : V)
    (w : InnerMap K V) :
    (mapLookup k' (InnerMap.upsert_insert k v w)).isSome
      ↔ k' = k ∨ (mapLookup k' w).isSome := by
  induction w with
  | nil =>
    by_cases h : k = k'
    · simp [InnerMap.upsert_insert, mapLookup_cons, mapLookup, h]
    · simp [InnerMap.upsert_insert, mapLookup_cons, mapLookup, h, Ne.symm h]
  | cons e rest ih =>
    obtain ⟨k₁, bag⟩ := e
    by_cases h1 : k < k₁
    · simp only [InnerMap.upsert_insert, if_pos h1, mapLookup_cons]
      by_cases h2 : k = k'
      · simp [h2]
      · simp only [if_neg h2]
        by_cases h3 : k₁ = k'
        · simp [h3]
        · simp [h3, Ne.symm h2]
    · by_cases h2 : k = k₁
      · simp only [InnerMap.upsert_insert, if_neg h1, if_pos h2, mapLookup_cons]
        by_cases h3 : k₁ = k'
        · simp [h3, h3.symm.trans h2.symm]
        · have h4 : ¬k' = k := fun hc => h3 (h2.symm.trans hc.symm)
          simp [h3, h4]
      · simp only [InnerMap.upsert_insert, if_neg h1, if_neg h2, mapLookup_cons]
        by_cases h3 : k₁ = k'
        · simp [h3]
        · simp [h3, ih]

theorem lookup_foldl_upsert_isSome {K V : Type} [LinearOrder K] (v₀ : V)
    (ins : List K) (w : InnerMap K V) (k : K) :
    (mapLookup k (ins.foldl (fun w₁ k₁ => InnerMap.upsert_insert k₁ v₀ w₁) w)).isSome
      ↔ k ∈ ins ∨ (mapLookup k w).isSome := by
  induction ins generalizing w with
  | nil => simp
  | cons i rest ih =>
    rw [List.foldl_cons, ih, mapLookup_upsert_isSome]
    simp only [List.mem_cons]
    tauto

theorem lookup_foldl_remove_isSome {K V : Type} [DecidableEq K] (rem : List K)
    (w : InnerMap K V) (k : K) :
    (mapLookup k (rem.foldl (fun w₁ k₁ => InnerMap.remove_entry k₁ w₁) w)).isSome
      ↔ k ∉ rem ∧ (mapLookup k w).isSome := by
  induction rem generalizing w with
  | nil => simp
  | cons r rest ih =>
    rw [List.foldl_cons, ih, mapLookup_remove_entry]
    by_cases h : k = r
    · simp [h]
    · simp only [if_neg h, List.mem_cons]
      tauto

theorem foldl_insert_writeCopy {K V : Type} [LinearOrder K] [DecidableEq V] (v₀ : V)
    (ins : List K) (m : LRMap K V) :
    (ins.foldl (fun m₁ k₁ => m₁.insert k₁ v₀) m).writeCopy
      = ins.foldl (fun w₁ k₁ => InnerMap.upsert_insert k₁ v₀ w₁) m.writeCopy := by
  induction ins generalizing m with
  | nil => rfl
  | cons i rest ih =>
    rw [List.foldl_cons, List.foldl_cons]
    exact ih (m.insert i v₀)

theorem foldl_remove_writeCopy {K V : Type} [LinearOrder K] [DecidableEq V]
    (rem : List K) (m : LRMap K V) :
    (rem.foldl (fun m₁ k₁ => m₁.remove_entry k₁) m).writeCopy
      = rem.foldl (fun w₁ k₁ => InnerMap.remove_entry k₁ w₁) m.writeCopy := by
  induction rem generalizing m with
  | nil => rfl
  | cons r rest ih =>
    rw [List.foldl_cons, List.foldl_cons]
    exact ih (m.remove_entry r)

theorem logCoherent_foldl_insert {K V : Type} [LinearOrder K] [DecidableEq V] (v₀ : V)
    (ins : List K) {m : LRMap K V} (h : logCoherent m) :
    logCoherent (ins.foldl (fun m₁ k₁ => m₁.insert k₁ v₀) m) := by
  induction ins generalizing m with
  | nil => exact h
  | cons i rest ih => exact ih (logCoherent_insert h i v₀)

theorem logCoherent_foldl_remove {K V : Type} [LinearOrder K] [DecidableEq V]
    (rem : List K) {m : LRMap K V} (h : logCoherent m) :
    logCoherent (rem.foldl (fun m₁ k₁ => m₁.remove_entry k₁) m) := by
  induction rem generalizing m with
  | nil => exact h
  | cons r rest ih => exact ih (logCoherent_remove_entry h r)

/-- C8: `remove_entry` on an absent key is a no-op (the map is literally
unchanged, no error); on any key the lookup afterwards is `none` for that key
and untouched for every other key; and after inserting the keys `ins`,
publishing, removing the keys `rem` and publishing again, the present keys are
exactly the inserted ones minus the removed ones. -/
theorem remove_entry_spec {K V : Type} [LinearOrder K] [DecidableEq V] (v₀ : V) :
    (∀ (w : InnerMap K V) (k : K), mapLookup k w = none →
      InnerMap.remove_entry k w = w) ∧
    (∀ (w : InnerMap K V) (k k' : K),
      mapLookup k' (InnerMap.remove_entry k w)
        = if k' = k then none else mapLookup k' w) ∧
    (∀ (ins rem : List K) (k : K),
      (((rem.foldl (fun m₁ k₁ => m₁.remove_entry k₁)
          ((ins.foldl (fun m₁ k₁ => m₁.insert k₁ v₀)
            (LRMap.empty : LRMap K V)).publish)).publish).get k).isSome
        ↔ (k ∈ ins ∧ k ∉ rem)) := by
  refine ⟨fun w k h => remove_entry_absent_noop h,
    fun w k k' => mapLookup_remove_entry k k' w, fun ins rem k => ?_⟩
  have hA : logCoherent (ins.foldl (fun m₁ k₁ => m₁.insert k₁ v₀)
      (LRMap.empty : LRMap K V)) :=
    logCoherent_foldl_insert v₀ ins logCoherent_empty
  have hB : logCoherent (rem.foldl (fun m₁ k₁ => m₁.remove_entry k₁)
      ((ins.foldl (fun m₁ k₁ => m₁.insert k₁ v₀)
        (LRMap.empty : LRMap K V)).publish)) :=
    logCoherent_foldl_remove rem (logCoherent_publish hA)
  rw [get_publish hB k, foldl_remove_writeCopy]
  have hpubw : ((ins.foldl (fun m₁ k₁ => m₁.insert k₁ v₀)
      (LRMap.empty : LRMap K V)).publish).writeCopy
      = ins.foldl (fun w₁ k₁ => InnerMap.upsert_insert k₁ v₀ w₁) [] := by
    show (ins.foldl (fun m₁ k₁ => m₁.insert k₁ v₀)
      (LRMap.empty : LRMap K V)).writeCopy = _
    rw [foldl_insert_writeCopy]
    rfl
  rw [hpubw, lookup_foldl_remove_isSome, lookup_foldl_upsert_isSome]
  simp [mapLookup, and_comm]

/-- Witness for C8: removing an absent key from the empty inner map is a
no-op, and inserting keys `0, 1` then removing key `0` leaves exactly key `1`
present. -/
theorem remove_entry_spec_witness :
    (mapLookup (0 : Int) ([] : InnerMap Int Int) = none →
      InnerMap.remove_entry (0 : Int) ([] : InnerMap Int Int) = []) ∧
    ((((([(0 : Int)]).foldl (fun m₁ k₁ => m₁.remove_entry k₁)
        ((([(0 : Int), 1]).foldl (fun m₁ k₁ => m₁.insert k₁ (9 : Int))
          (LRMap.empty : LRMap Int Int)).publish)).publish).get 1).isSome
      ↔ ((1 : Int) ∈ [(0 : Int), 1] ∧ (1 : Int) ∉ [(0 : Int)])) :=
  ⟨(remove_entry_spec (9 : Int)).1 [] 0,
    (remove_entry_spec (9 : Int)).2.2 [0, 1] [0] 1⟩

theorem keys_upsert_mem {K V : Type} [LinearOrder K] {k key : K} {v : V}
    {m : InnerMap K V}
    (h : key ∈ (InnerMap.upsert_insert k v m).map Prod.fst) :
    key ∈ m.map Prod.fst ∨ key = k := by
  induction m with
  | nil =>
    simp [InnerMap.upsert_insert] at h
    exact Or.inr h
  | cons e rest ih =>
    obtain ⟨k₁, bag⟩ := e
    by_cases h1 : k < k₁
    · simp only [InnerMap.upsert_insert, if_pos h1, List.map_cons, List.mem_cons] at h
      rcases h with h | h | h
      · exact Or.inr h
      · exact Or.inl (by simp [h])
      · exact Or.inl (by simp [h])
    · by_cases h2 : k = k₁
      · simp only [InnerMap.upsert_insert, if_neg h1, if_pos h2, List.map_cons,
          List.mem_cons] at h
        rcases h with h | h
        · exact Or.inl (by simp [h])
        · exact Or.inl (by simp [h])
      · simp only [InnerMap.upsert_insert, if_neg h1, if_neg h2, List.map_cons,
          List.mem_cons] at h
        rcases h with h | h
        · exact Or.inl (by simp [h])
        · rcases ih h with h' | h'
          · exact Or.inl (List.mem_cons_of_mem _ h')
          · exact Or.inr h'

theorem keysSorted_upsert {K V : Type} [LinearOrder K] {m : InnerMap K V}
    (h : keysSorted m) (k : K) (v : V) :
    keysSorted (InnerMap.upsert_insert k v m) := by
  induction m with
  | nil => simp [InnerMap.upsert_insert, keysSorted]
  | cons e rest ih =>
    obtain ⟨k₁, bag⟩ := e
    rw [keysSorted, List.map_cons, List.pairwise_cons] at h
    obtain ⟨hhead, htail⟩ := h
    by_cases h1 : k < k₁
    · rw [keysSorted]
      simp only [InnerMap.upsert_insert, if_pos h1, List.map_cons]
      rw [List.pairwise_cons]
      refine ⟨?_, List.pairwise_cons.2 ⟨hhead, htail⟩⟩
      intro b hb
      rcases List.mem_cons.1 hb with hb | hb
      · rw [hb]
        exact h1
      · exact lt_trans h1 (hhead b hb)
    · by_cases h2 : k = k₁
      · rw [keysSorted]
        simp only [InnerMap.upsert_insert, if_neg h1, if_pos h2, List.map_cons]
        exact List.pairwise_cons.2 ⟨hhead, htail⟩
      · have h3 : k₁ < k := lt_of_le_of_ne (not_lt.1 h1) (fun hc => h2 hc.symm)
        rw [keysSorted]
        simp only [InnerMap.upsert_insert, if_neg h1, if_neg h2, List.map_cons]
        rw [List.pairwise_cons]
        refine ⟨?_, ih htail⟩
        intro b hb
        rcases keys_upsert_mem hb with hb' | hb'
        · exact hhead b hb'
        · rw [hb']
          exact h3

theorem keysSorted_filter {K V : Type} [LinearOrder K] (p : K × List V → Bool)
    {m : InnerMap K V} (h : keysSorted m) : keysSorted (m.filter p) := by
  have hsub : List.Sublist ((m.filter p).map Prod.fst) (m.map Prod.fst) :=
    List.Sublist.map Prod.fst (List.filter_sublist m)
  exact List.Pairwise.sublist hsub h

theorem keys_rm_value_eq {K V : Type} [DecidableEq K] [DecidableEq V] (k : K) (v : V)
    (m : InnerMap K V) :
    (InnerMap.remove_value k v m).map Prod.fst = m.map Prod.fst := by
  induction m with
  | nil => rfl
  | cons e rest ih =>
    obtain ⟨k₁, bag⟩ := e
    rw [show InnerMap.remove_value k v ((k₁, bag) :: rest)
        = (if k₁ = k then (k₁, removeFirst v bag) else (k₁, bag))
          :: InnerMap.remove_value k v rest from rfl]
    by_cases h : k₁ = k <;> simp [h, ih]

theorem keysSorted_applyOp {K V : Type} [LinearOrder K] [DecidableEq V]
    {m : InnerMap K V} (h : keysSorted m) (op : Op K V) :
    keysSorted (applyOp m op) := by
  cases op with
  | add k v => exact keysSorted_upsert h k v
  | remove k => exact keysSorted_filter _ h
  | removeValue k v =>
    show keysSorted (InnerMap.remove_value k v m)
    rw [keysSorted, keys_rm_value_eq]
    exact h
  | removeRange bs => exact keysSorted_filter _ h
  | refresh => exact h

theorem keysSorted_foldl {K V : Type} [LinearOrder K] [DecidableEq V]
    (log : List (Op K V)) {m : InnerMap K V} (h : keysSorted m) :
    keysSorted (log.foldl applyOp m) := by
  induction log generalizing m with
  | nil => exact h
  | cons op rest ih => exact ih (keysSorted_applyOp h op)

theorem copiesSorted_doOp {K V : Type} [LinearOrder K] [DecidableEq V]
    {st : LRMap K V × RefMap K V × RefMap K V} (h : copiesSorted st.1) (op : Op K V) :
    copiesSorted (doOp st op).1 := by
  obtain ⟨hr, hw⟩ := h
  cases op with
  | add k v => exact ⟨hr, keysSorted_upsert hw k v⟩
  | remove k => exact ⟨hr, keysSorted_filter _ hw⟩
  | removeValue k v =>
    refine ⟨hr, ?_⟩
    show keysSorted (InnerMap.remove_value k v st.1.writeCopy)
    rw [keysSorted, keys_rm_value_eq]
    exact hw
  | removeRange bs => exact ⟨hr, keysSorted_filter _ hw⟩
  | refresh => exact ⟨keysSorted_foldl _ hr, hw⟩

theorem copiesSorted_do_ops {K V : Type} [LinearOrder K] [DecidableEq V]
    (ops : List (Op K V)) {st : LRMap K V × RefMap K V × RefMap K V}
    (h : copiesSorted st.1) : copiesSorted (do_ops ops st).1 := by
  induction ops generalizing st with
  | nil => exact h
  | cons op rest ih => exact ih (copiesSorted_doOp h op)

/-- C6: in every reachable map state, `len()` equals the number of keys the
`enter()` guard's `keys()` sequence enumerates — each present key counted
exactly once (the key sequence has no duplicates), present-but-empty bags
included, independent of how many values each bag holds. -/
theorem len_counts_distinct_keys {K V : Type} [LinearOrder K] [DecidableEq V]
    (ops : List (Op K V)) :
    (do_ops ops initState).1.len = ((do_ops ops initState).1.keys).length ∧
    ((do_ops ops initState).1.keys).Nodup := by
  have hs : copiesSorted (do_ops ops
      (initState : LRMap K V × RefMap K V × RefMap K V)).1 :=
    copiesSorted_do_ops ops ⟨List.Pairwise.nil, List.Pairwise.nil⟩
  constructor
  · show (do_ops ops (initState : LRMap K V × RefMap K V × RefMap K V)).1.readCopy.length
      = ((do_ops ops initState).1.readCopy.map Prod.fst).length
    rw [List.length_map]
  · exact hs.1.imp ne_of_lt

/-- C7: on a live handle every read succeeds — `enter()` yields a guard and
`get(k)` yields an answer (`some` bag or `none`); `enter()` reports the
map-gone result exactly when the writer side has been torn down. -/
theorem live_handle_reads_succeed {K V : Type} [LinearOrder K] [DecidableEq V]
    (r : ReadHandle K V) (k : K) :
    (∀ m : LRMap K V, r.state = some m →
      (r.enter).isSome ∧ (ReadHandle.get r k).isSome) ∧
    (r.enter = none ↔ r.state = none) := by
  constructor
  · intro m hm
    simp [ReadHandle.enter, ReadHandle.get, hm]
  · cases hs : r.state <;> simp [ReadHandle.enter, hs]

/-- Witness for C7: a live handle over a fresh map answers both `enter()` and
`get`. -/
theorem live_handle_reads_succeed_witness :
    (ReadHandle.mk (some (LRMap.empty : LRMap Int Int))).state = some LRMap.empty ∧
    ((ReadHandle.mk (some (LRMap.empty : LRMap Int Int))).enter).isSome ∧
    (ReadHandle.get (ReadHandle.mk (some (LRMap.empty : LRMap Int Int))) 0).isSome :=
  ⟨rfl, (live_handle_reads_succeed (ReadHandle.mk (some LRMap.empty)) 0).1
    LRMap.empty rfl⟩

end ReaderMap
